import Mathlib

/-!
Verification development for the ai-lingo streaming chat client.

The embedding below translates the TypeScript sources into Lean:

* `parseText` embeds the segment parser of the ExpressionText component
  (src/unnamed/part_002, lines 42-81), whose regex is the lazy
  pattern matching double-bracket markers with a double-colon split.
* `extractExpressions` embeds the greedy-regex extractor of
  src/frontend/src/hooks/useAGUIChat.ts (lines 233-246).
* Later sections embed the frame decoder, the JSON payload decoding,
  the message assembler and the session actions of useAGUIChat.ts.

Text is modelled as `List Char` (`Str`).  Wall-clock timestamps
(`new Date()` in the source) are environmental and are not modelled:
no claim mentions them.
-/

/-- Text is modelled as a list of characters. -/
abbrev Str := List Char

/-- Coerce a Lean string literal to the `List Char` model. -/
def str (s : String) : Str := s.data

/-- The character classes trimmed by JavaScript's `String.prototype.trim`
restricted to the whitespace kinds that can occur in the payloads
(space, tab, newline, carriage return). -/
def isWsChar (c : Char) : Bool :=
  c = ' ' || c = '\t' || c = '\n' || c = '\r'

/-- Model of `.trim()` on a phrase or meaning. -/
def trimStr (s : Str) : Str :=
  ((s.dropWhile isWsChar).reverse.dropWhile isWsChar).reverse

/-- An extracted phrase/meaning pair (interface `Expression`). -/
structure Expression where
  phrase : Str
  meaning : Str
deriving DecidableEq

/-!
## The double-bracket matchers

Both regexes scan left to right for `[[`, then a run of characters that
excludes `]` (the candidate body `R`), then require the two characters
following that run to be `]]`.  The body must contain a `::` delimiter
whose left part (the phrase) is non-empty and whose right part (the
meaning) is non-empty.

The two patterns differ only in laziness:

* `parseText` uses `\[\[([^\]]+?)::([^\]]+?)\]\]`; lazy backtracking
  makes the phrase end at the FIRST `::` occurrence `j` with
  `1 ≤ j ≤ R.length - 3`.
* `extractExpressions` uses `\[\[([^\]]+)::([^\]]+)\]\]`; greedy
  backtracking shrinks the first group from the longest candidate, so
  the phrase ends at the LAST such occurrence.

In both cases, because the groups cannot cross a `]`, the match at a
given `[[` succeeds exactly when such a `j` exists and the body run is
followed by `]]`; the remainder of the input after the match is the text
after that `]]`.  On failure the engine advances the scan by one
character, which the scanners below reproduce.
-/

/-- Positions `j` inside a body `R` at which the `::` delimiter can split
the body into a non-empty phrase `R.take j` and a non-empty meaning
`R.drop (j+2)`. -/
def delimPositions (R : Str) : List Nat :=
  (List.range R.length).filter
    (fun j => decide (1 ≤ j) && decide (j + 3 ≤ R.length)
      && decide (R.getD j ' ' = ':') && decide (R.getD (j+1) ' ' = ':'))

/-- Split position chosen by the lazy pattern (first delimiter). -/
def firstDelim (R : Str) : Option Nat := (delimPositions R).head?

/-- Split position chosen by the greedy pattern (last delimiter). -/
def lastDelim (R : Str) : Option Nat := (delimPositions R).getLast?

/-- Attempt to match one `[[phrase::meaning]]` marker at the head of
`s`.  Returns the (untrimmed) phrase, the (untrimmed) meaning and the
input remaining after the closing `]]`.  `useLast` selects the greedy
split (extractor) over the lazy split (segment parser). -/
def tryMatchAt (useLast : Bool) (s : Str) : Option (Str × Str × Str) :=
  match s with
  | c1 :: c2 :: t =>
    if c1 = '[' && c2 = '[' then
      let R := t.takeWhile (fun c => c ≠ ']')
      match t.drop R.length with
      | d1 :: d2 :: rest =>
        if d1 = ']' && d2 = ']' then
          match (if useLast then lastDelim R else firstDelim R) with
          | some j => some (R.take j, R.drop (j + 2), rest)
          | none => none
        else none
      | _ => none
    else none
  | _ => none

/-- One segment produced by `parseText`: plain text, or a highlighted
expression (the source also stores the trimmed phrase as the segment
`content`, which is recoverable from the expression). -/
inductive Seg where
  | text (content : Str)
  | expr (e : Expression)
deriving DecidableEq

/-- Scanner loop of `extractExpressions`: repeatedly `exec` the greedy
pattern, pushing the trimmed groups of each match.  The fuel argument
is the length of the remaining input; each step consumes at least one
character, so the fuel never runs out before the input does. -/
def extractAux : Nat → Str → List Expression
  | 0, _ => []
  | _ + 1, [] => []
  | fuel + 1, c :: rest =>
    match tryMatchAt true (c :: rest) with
    | some (p, m, r) => ⟨trimStr p, trimStr m⟩ :: extractAux fuel r
    | none => extractAux fuel rest

/-- `extractExpressions` from useAGUIChat.ts (lines 233-246). -/
def extractExpressions (s : Str) : List Expression := extractAux s.length s

/-- Scanner loop of `parseText`: `pending` is the plain text accumulated
since the previous match (`text.slice(lastIndex, match.index)` in the
source); it is emitted as a text segment only when non-empty.  The fuel
argument is the length of the remaining input, as in `extractAux`. -/
def parseAux : Nat → Str → Str → List Seg
  | 0, pending, s =>
    if pending ++ s = [] then [] else [Seg.text (pending ++ s)]
  | _ + 1, pending, [] =>
    if pending = [] then [] else [Seg.text pending]
  | fuel + 1, pending, c :: rest =>
    match tryMatchAt false (c :: rest) with
    | some (p, m, r) =>
      (if pending = [] then [] else [Seg.text pending])
        ++ Seg.expr ⟨trimStr p, trimStr m⟩ :: parseAux fuel [] r
    | none => parseAux fuel (pending ++ [c]) rest

/-- `parseText` from the ExpressionText component (part_002, lines 42-81). -/
def parseText (s : Str) : List Seg := parseAux s.length [] s

/-!
## JSON payloads

`JSON.parse` and the payload values it produces are modelled by the
inductive `Json` and the fuel-based recursive-descent `jsonParse`.
The modelled grammar covers objects, arrays, strings (with the common
escapes), integer numerals, `true`, `false` and `null`; fractional and
exponent numerals and `\u` escapes are outside the modelled subset (no
frame in this system carries them).  A parse that leaves trailing
non-whitespace fails, as `JSON.parse` does.
-/

/-- A decoded JSON payload. -/
inductive Json where
  | null
  | bool (b : Bool)
  | num (n : Int)
  | str (s : Str)
  | arr (elems : List Json)
  | obj (fields : List (Str × Json))

/-- The left-brace character, kept out of literals. -/
def lbrace : Char := Char.ofNat 123

/-- The right-brace character, kept out of literals. -/
def rbrace : Char := Char.ofNat 125

/-- Skip JSON whitespace. -/
def skipWs (s : Str) : Str := s.dropWhile isWsChar

/-- Parse the body of a JSON string literal after its opening quote;
returns the decoded characters and the input after the closing quote. -/
def parseStrBody : Nat → Str → Option (Str × Str)
  | 0, _ => none
  | _ + 1, [] => none
  | fuel + 1, c :: rest =>
    if c = '"' then some ([], rest)
    else if c = '\\' then
      match rest with
      | [] => none
      | e :: rest2 =>
        let dec : Option Char :=
          if e = '"' then some '"'
          else if e = '\\' then some '\\'
          else if e = '/' then some '/'
          else if e = 'n' then some '\n'
          else if e = 't' then some '\t'
          else if e = 'r' then some '\r'
          else if e = 'b' then some (Char.ofNat 8)
          else if e = 'f' then some (Char.ofNat 12)
          else none
        match dec with
        | some d =>
          match parseStrBody fuel rest2 with
          | some (cs, r) => some (d :: cs, r)
          | none => none
        | none => none
    else
      match parseStrBody fuel rest with
      | some (cs, r) => some (c :: cs, r)
      | none => none

/-- Parse a run of decimal digits into a natural number. -/
def parseDigits (s : Str) : Option (Nat × Str) :=
  let ds := s.takeWhile (fun c => c.isDigit)
  if ds = [] then none
  else some (ds.foldl (fun acc c => acc * 10 + (c.toNat - 48)) 0, s.drop ds.length)

mutual

/-- Parse one JSON value. -/
def parseVal : Nat → Str → Option (Json × Str)
  | 0, _ => none
  | fuel + 1, s =>
    match skipWs s with
    | [] => none
    | c :: rest =>
      if c = '"' then
        match parseStrBody (fuel + 1) rest with
        | some (cs, r) => some (.str cs, r)
        | none => none
      else if c = lbrace then
        match skipWs rest with
        | c2 :: rest2 =>
          if c2 = rbrace then some (.obj [], rest2)
          else
            match parseMembers fuel (c2 :: rest2) with
            | some (fs, r) => some (.obj fs, r)
            | none => none
        | [] => none
      else if c = '[' then
        match skipWs rest with
        | c2 :: rest2 =>
          if c2 = ']' then some (.arr [], rest2)
          else
            match parseElems fuel (c2 :: rest2) with
            | some (es, r) => some (.arr es, r)
            | none => none
        | [] => none
      else if c = 't' then
        match rest with
        | 'r' :: 'u' :: 'e' :: r => some (.bool true, r)
        | _ => none
      else if c = 'f' then
        match rest with
        | 'a' :: 'l' :: 's' :: 'e' :: r => some (.bool false, r)
        | _ => none
      else if c = 'n' then
        match rest with
        | 'u' :: 'l' :: 'l' :: r => some (.null, r)
        | _ => none
      else if c = '-' then
        match parseDigits rest with
        | some (n, r) => some (.num (-(n : Int)), r)
        | none => none
      else if c.isDigit then
        match parseDigits (c :: rest) with
        | some (n, r) => some (.num (n : Int), r)
        | none => none
      else none

/-- Parse the members of a JSON object, positioned at the first key. -/
def parseMembers : Nat → Str → Option (List (Str × Json) × Str)
  | 0, _ => none
  | fuel + 1, s =>
    match skipWs s with
    | '"' :: rest =>
      match parseStrBody (fuel + 1) rest with
      | some (key, r1) =>
        match skipWs r1 with
        | ':' :: r2 =>
          match parseVal fuel r2 with
          | some (v, r3) =>
            match skipWs r3 with
            | ',' :: r4 =>
              match parseMembers fuel r4 with
              | some (fs, r5) => some ((key, v) :: fs, r5)
              | none => none
            | c :: r4 =>
              if c = rbrace then some ([(key, v)], r4) else none
            | [] => none
          | none => none
        | _ => none
      | none => none
    | _ => none

/-- Parse the elements of a JSON array, positioned at the first element. -/
def parseElems : Nat → Str → Option (List Json × Str)
  | 0, _ => none
  | fuel + 1, s =>
    match parseVal fuel s with
    | some (v, r1) =>
      match skipWs r1 with
      | ',' :: r2 =>
        match parseElems fuel r2 with
        | some (es, r3) => some (v :: es, r3)
        | none => none
      | ']' :: r2 => some ([v], r2)
      | _ => none
    | none => none

end

/-- Model of `JSON.parse`: a value with nothing but whitespace after it. -/
def jsonParse (s : Str) : Option Json :=
  match parseVal (s.length + 1) s with
  | some (j, r) => if skipWs r = [] then some j else none
  | none => none

/-- Field lookup on a decoded payload (member access `data.field`).
Returns `none` for a missing member or a non-object value, the
JavaScript `undefined`.  With duplicate keys `JSON.parse` keeps the
last occurrence, hence `getLast?`. -/
def getField (j : Json) (key : Str) : Option Json :=
  match j with
  | .obj fields => ((fields.filter (fun p => p.1 = key)).map (fun p => p.2)).getLast?
  | _ => none

/-- JavaScript truthiness of a decoded payload value. -/
def jsTruthy (j : Json) : Bool :=
  match j with
  | .null => false
  | .bool b => b
  | .num n => n ≠ 0
  | .str s => s ≠ []
  | .arr _ => true
  | .obj _ => true

/-!
## String coercion and event serialization

`assistantContent += data.content` and `extractExpressions(data.content)`
coerce the payload value to text with JavaScript string coercion;
`serializeEventContent` renders event payloads with
`JSON.stringify(value, null, 2)`.  Both are modelled below.  A missing
member (`undefined`) coerces to the text `undefined`.
-/

/-- Decimal rendering of an integer, as JavaScript number coercion. -/
def intStr (n : Int) : Str := (toString n).data

/-- Whether a payload value is JSON `null`. -/
def isNullJ : Json → Bool
  | .null => true
  | _ => false

mutual

/-- JavaScript string coercion of a payload value (`'' + v`). -/
def jsToString : Json → Str
  | .null => str "null"
  | .bool b => if b then str "true" else str "false"
  | .num n => intStr n
  | .str s => s
  | .arr es => jsArrJoin es
  | .obj _ => str "[object Object]"
  termination_by structural j => j

/-- Array coercion joins element coercions with commas; `null` and
`undefined` elements render as the empty string. -/
def jsArrJoin : List Json → Str
  | [] => []
  | [e] => if isNullJ e then [] else jsToString e
  | e :: rest =>
    (if isNullJ e then [] else jsToString e) ++ ',' :: jsArrJoin rest
  termination_by structural l => l

end

/-- String coercion of a possibly-missing member (`undefined` included). -/
def jsCoerce (v : Option Json) : Str :=
  match v with
  | none => str "undefined"
  | some j => jsToString j

/-- Escape a string body for `JSON.stringify`. -/
def jsonEscape : Str → Str
  | [] => []
  | c :: rest =>
    if c = '"' then '\\' :: '"' :: jsonEscape rest
    else if c = '\\' then '\\' :: '\\' :: jsonEscape rest
    else if c = '\n' then '\\' :: 'n' :: jsonEscape rest
    else if c = '\t' then '\\' :: 't' :: jsonEscape rest
    else if c = '\r' then '\\' :: 'r' :: jsonEscape rest
    else c :: jsonEscape rest

/-- Indentation of `width` spaces. -/
def padSpaces (width : Nat) : Str := List.replicate width ' '

/-- Interpose a separator between rendered items. -/
def joinWith (sep : Str) : List Str → Str
  | [] => []
  | [x] => x
  | x :: rest => x ++ sep ++ joinWith sep rest

mutual

/-- Model of `JSON.stringify(v, null, 2)` at nesting depth `ind`. -/
def stringifyAt (ind : Nat) : Json → Str
  | .null => str "null"
  | .bool b => if b then str "true" else str "false"
  | .num n => intStr n
  | .str s => '"' :: jsonEscape s ++ ['"']
  | .arr [] => str "[]"
  | .arr (e :: es) =>
    '[' :: '\n' :: joinWith (str ",\n") (stringifyElems (ind + 2) (e :: es))
      ++ '\n' :: padSpaces ind ++ [']']
  | .obj [] => [lbrace, rbrace]
  | .obj (f :: fs) =>
    lbrace :: '\n' :: joinWith (str ",\n") (stringifyFields (ind + 2) (f :: fs))
      ++ '\n' :: padSpaces ind ++ [rbrace]
  termination_by structural j => j

/-- Render array elements, each on its own indented line. -/
def stringifyElems (ind : Nat) : List Json → List Str
  | [] => []
  | e :: es => (padSpaces ind ++ stringifyAt ind e) :: stringifyElems ind es
  termination_by structural l => l

/-- Render object members, each on its own indented line. -/
def stringifyFields (ind : Nat) : List (Str × Json) → List Str
  | [] => []
  | (k, v) :: fs =>
    (padSpaces ind ++ '"' :: jsonEscape k ++ '"' :: ':' :: ' ' :: stringifyAt ind v)
      :: stringifyFields ind fs
  termination_by structural l => l

end

/-- `serializeEventContent` from useAGUIChat.ts (lines 129-137): strings
pass through, `undefined`/`null` become empty, anything else is
pretty-printed. -/
def serializeEventContent (v : Option Json) : Str :=
  match v with
  | some (.str s) => s
  | none => []
  | some .null => []
  | some j => stringifyAt 0 j

/-!
## Chat state (useAGUIChat)

The hook state (`sessionId`, `variant`, `topic`, `topics`, `messages`,
`events`, `isLoading`, `error`) together with the cancellation plumbing:
`ctrl` models `abortControllerRef.current` as an identifier of the most
recently created `AbortController`, `aborted` records which controllers
have had `abort()` called, and `ops` holds the local variables
(`buffer`, `assistantContent`, `extractedExpressions`) of each stream
loop still in flight, keyed by its controller identifier.
-/

/-- Message roles. -/
inductive Role where
  | user
  | assistant
deriving DecidableEq

/-- Interface `Message`; the `expressions` member is optional in the
source (absent on user messages). -/
structure Message where
  role : Role
  content : Str
  expressions : Option (List Expression)
deriving DecidableEq

/-- Event kinds of interface `ChatEvent`. -/
inductive EventType where
  | thought
  | tool_call
  | tool_result
  | state_update
  | response
deriving DecidableEq

/-- Interface `ChatEvent`. -/
structure ChatEvent where
  type : EventType
  content : Str
deriving DecidableEq

/-- Interface `Topic`. -/
structure Topic where
  headline : Str
  source : Str
  url : Str
deriving DecidableEq

/-- Local variables of one in-flight stream loop. -/
structure OpState where
  buffer : Str
  content : Str
  exprs : List Expression
deriving DecidableEq

/-- The hook state. -/
structure ChatState where
  sessionId : Option Str
  variant : Option Str
  topic : Option Topic
  topics : List Topic
  messages : List Message
  events : List ChatEvent
  isLoading : Bool
  error : Option Str
  ctrl : Option Nat
  aborted : List Nat
  ops : List (Nat × OpState)
deriving DecidableEq

/-- The state of a freshly rendered hook. -/
def initialState : ChatState :=
  ⟨none, none, none, [], [], [], false, none, none, [], []⟩

/-- `addEvent`: append a `ChatEvent` with serialized content. -/
def addEvent (st : ChatState) (ty : EventType) (v : Option Json) : ChatState :=
  { st with events := st.events ++ [⟨ty, serializeEventContent v⟩] }

/-- Accumulator of the in-progress assistant turn
(`assistantContent` and `extractedExpressions`). -/
structure TurnAcc where
  content : Str
  exprs : List Expression
deriving DecidableEq

/-- The empty accumulator. -/
def emptyAcc : TurnAcc := ⟨[], []⟩

/-- The tag of a decoded payload: `data.type` when it is a string.
Comparisons `data.type === '...'` in the source are string comparisons,
so a non-string tag selects no branch. -/
def typeTag (j : Json) : Option Str :=
  match getField j (str "type") with
  | some (.str s) => some s
  | _ => none

/-- `data.content ?? data`: the member unless it is missing or null. -/
def contentOrSelf (j : Json) : Json :=
  match getField j (str "content") with
  | none => j
  | some .null => j
  | some v => v

/-- Dispatch of one decoded payload inside `processStreamResponse`
(useAGUIChat.ts lines 274-308).  A `null` payload raises a `TypeError`
at the `data.type` member access, swallowed by the per-line handler, so
it changes nothing. -/
def applyEvent (st : ChatState) (acc : TurnAcc) (j : Json) : ChatState × TurnAcc :=
  match j with
  | .null => (st, acc)
  | _ =>
    match typeTag j with
    | none => (st, acc)
    | some t =>
      if t = str "thought" then
        (addEvent st .thought (getField j (str "content")), acc)
      else if t = str "tool_call" then
        (addEvent st .tool_call (some (contentOrSelf j)), acc)
      else if t = str "tool_result" then
        (addEvent st .tool_result (some (contentOrSelf j)), acc)
      else if t = str "state_update" then
        (addEvent st .state_update (some (contentOrSelf j)), acc)
      else if t = str "assistant_message" then
        (addEvent st .response (some (contentOrSelf j)), acc)
      else if t = str "response" then
        (addEvent st .response (some (contentOrSelf j)), acc)
      else if t = str "chunk" then
        let c := jsCoerce (getField j (str "content"))
        (st, ⟨acc.content ++ c, acc.exprs ++ extractExpressions c⟩)
      else if t = str "done" then
        let st1 := { st with messages :=
          st.messages ++ [⟨.assistant, acc.content, some acc.exprs⟩] }
        let st2 := if acc.content ≠ [] then
            addEvent st1 .response (some (.str acc.content))
          else st1
        (st2, emptyAcc)
      else
        (st, acc)

/-- The frame tag: only lines starting with this prefix carry payloads. -/
def dataTag : Str := str "data: "

/-- Per-line handling in `processStreamResponse`: prefix check, then
`JSON.parse(line.slice(6))` inside a try/catch whose failure leaves the
state untouched. -/
def applyMsgLine (p : ChatState × TurnAcc) (line : Str) : ChatState × TurnAcc :=
  if dataTag.isPrefixOf line then
    match jsonParse (line.drop 6) with
    | some j => applyEvent p.1 p.2 j
    | none => p
  else p

/-!
## Topic registry (startTopicChat)
-/

/-- `normalizeTopic` from useAGUIChat.ts (lines 57-80).  Falsy values
and values without a truthy `headline` are rejected; `source`/`url`
default to empty via `?? ''`.  Non-string member values are kept by the
source as-is and only coerced when displayed; the model coerces them at
construction, which agrees with the source on all string-valued
payloads. -/
def normalizeTopic (v : Json) : Option Topic :=
  if jsTruthy v then
    match v with
    | .str s => some ⟨s, [], []⟩
    | .arr _ => none
    | .obj _ =>
      match getField v (str "headline") with
      | some hv =>
        if jsTruthy hv then
          let sv := match getField v (str "source") with
            | none => [] | some .null => [] | some x => jsToString x
          let uv := match getField v (str "url") with
            | none => [] | some .null => [] | some x => jsToString x
          some ⟨jsToString hv, sv, uv⟩
        else none
      | none => none
    | _ => none
  else none

/-- The `setTopics` updater of `startTopicChat` (lines 199-207): skip
the candidate when some registered topic has the same non-empty `url`,
or when some registered topic has the same `headline`; otherwise append. -/
def insertTopic (prev : List Topic) (t : Topic) : List Topic :=
  if prev.any (fun item => item.url ≠ [] && item.url = t.url) then prev
  else if prev.any (fun item => item.headline = t.headline) then prev
  else prev ++ [t]

/-- Per-line handling in `startTopicChat` (lines 192-216): decode the
payload, and when `data.topic` is truthy and normalizes, insert it,
make it current, and log a `tool_call` event. -/
def applyTopicLine (st : ChatState) (line : Str) : ChatState :=
  if dataTag.isPrefixOf line then
    match jsonParse (line.drop 6) with
    | some j =>
      match j with
      | .null => st
      | _ =>
        match getField j (str "topic") with
        | none => st
        | some tv =>
          if jsTruthy tv then
            match normalizeTopic tv with
            | some nt =>
              { st with
                topics := insertTopic st.topics nt,
                topic := some nt,
                events := st.events ++
                  [⟨.tool_call, str "Selected topic: " ++ nt.headline⟩] }
            | none => st
          else st
    | none => st
  else st

/-!
## Frame decoding: the line-splitting loop

Both stream loops run
`buffer += decode(value); lines = buffer.split('\n'); buffer = lines.pop() || ''`
and then handle each element of `lines`.  `splitNl` mirrors
`String.prototype.split('\n')` (always at least one part; a trailing
separator yields a trailing empty part).  `splitNlP` computes the same
decomposition directly as (complete lines, residual); the equivalence is
`splitNlP_eq`.  When the transport ends, the leftover `buffer` is NOT
handled: only `assistantContent` is flushed.
-/

/-- Model of `s.split('\n')`. -/
def splitNl : Str → List Str
  | [] => [[]]
  | c :: rest =>
    if c = '\n' then [] :: splitNl rest
    else
      match splitNl rest with
      | [] => [[c]]
      | l :: ls => (c :: l) :: ls

/-- The same decomposition as (complete lines, residual line). -/
def splitNlP : Str → List Str × Str
  | [] => ([], [])
  | c :: rest =>
    let p := splitNlP rest
    if c = '\n' then ([] :: p.1, p.2)
    else
      match p.1 with
      | [] => ([], c :: p.2)
      | l :: ls => ((c :: l) :: ls, p.2)

/-- One iteration of the read loop, generic in the per-line handler:
append the fragment to the carried buffer, split, keep the last part as
the new buffer, and fold the handler over the complete lines. -/
def feedFrag {σ : Type} (handle : σ → Str → σ) (p : Str × σ) (frag : Str) : Str × σ :=
  let s := p.1 ++ frag
  let parts := splitNl s
  (parts.getLastD [], parts.dropLast.foldl handle p.2)

/-- The whole read loop over a finite sequence of delivered fragments.
The final `reader.read()` that reports `done` contributes an empty
decode, which leaves the buffer split unchanged, so the loop is exactly
this fold. -/
def runStream {σ : Type} (handle : σ → Str → σ) (st : σ) (frags : List Str) : Str × σ :=
  frags.foldl (feedFrag handle) ([], st)

/-- The sequence of complete lines the loop hands to its per-line
handler, in order. -/
def streamLines (frags : List Str) : List Str :=
  (runStream (fun acc l => acc ++ [l]) ([] : List Str) frags).2

/-- The decoded event records of a delivered fragment sequence: the
payloads of the prefixed complete lines that parse, in order. -/
def decodeLine (line : Str) : Option Json :=
  if dataTag.isPrefixOf line then jsonParse (line.drop 6) else none

/-- Decoded payload sequence of a whole stream. -/
def decodedPayloads (frags : List Str) : List Json :=
  (streamLines frags).filterMap decodeLine

/-- End-of-stream flush of `processStreamResponse` (lines 316-325):
a non-empty `assistantContent` becomes one assistant message. -/
def finalFlush (p : ChatState × TurnAcc) : ChatState :=
  if p.2.content ≠ [] then
    { p.1 with messages :=
      p.1.messages ++ [⟨.assistant, p.2.content, some p.2.exprs⟩] }
  else p.1

/-- `processStreamResponse` (lines 251-326) over a delivered fragment
sequence. -/
def processStreamResponse (st : ChatState) (frags : List Str) : ChatState :=
  finalFlush (runStream applyMsgLine (st, emptyAcc) frags).2

/-!
## Session actions and cancellation (sendMessage / startTopicChat / reset)

The interleaving of concurrent stream loops with user commands is
modelled by a small-step action semantics.  Each `AbortController` is a
fresh identifier; `Act.sendStart`/`Act.topicStart` are the synchronous
prologues (they overwrite `ctrl` WITHOUT aborting the previous
controller, as the source does), `Act.frag`/`Act.topicFrag` deliver one
transport fragment to the loop owned by a controller (a loop whose
controller has been aborted applies nothing: its pending read rejects
and the exception handler swallows the `AbortError`), and
`Act.streamEnd`/`Act.topicEnd` are the end of a loop: the flush (skipped
when aborted, since the rejection skips it) followed by the `finally`
block (`setIsLoading(false); abortControllerRef.current = null`).
`Act.reset` aborts the current controller and clears the state (it does
not null the ref; the aborted loop's `finally` does). -/
inductive Act where
  | sendStart (n : Nat) (content : Str)
  | topicStart (n : Nat)
  | frag (n : Nat) (s : Str)
  | topicFrag (n : Nat) (s : Str)
  | streamEnd (n : Nat)
  | topicEnd (n : Nat)
  | reset

/-- Look up the loop-local state of controller `n`. -/
def lookupOp (ops : List (Nat × OpState)) (n : Nat) : Option OpState :=
  match ops with
  | [] => none
  | (k, o) :: rest => if k = n then some o else lookupOp rest n

/-- Replace the loop-local state of controller `n`. -/
def updateOp (ops : List (Nat × OpState)) (n : Nat) (o : OpState) :
    List (Nat × OpState) :=
  ops.map (fun p => if p.1 = n then (n, o) else p)

/-- Drop the loop-local state of controller `n`. -/
def removeOp (ops : List (Nat × OpState)) (n : Nat) : List (Nat × OpState) :=
  ops.filter (fun p => p.1 ≠ n)

/-- One step of the session model. -/
def step (st : ChatState) : Act → ChatState
  | .sendStart n content =>
    match st.sessionId with
    | none => { st with error := some (str "No active session") }
    | some _ =>
      { st with
        error := none,
        isLoading := true,
        messages := st.messages ++ [⟨.user, content, none⟩],
        ctrl := some n,
        ops := st.ops ++ [(n, ⟨[], [], []⟩)] }
  | .topicStart n =>
    match st.sessionId with
    | none => { st with error := some (str "No active session") }
    | some _ =>
      { st with
        error := none,
        isLoading := true,
        ctrl := some n,
        ops := st.ops ++ [(n, ⟨[], [], []⟩)] }
  | .frag n s =>
    if st.aborted.contains n then st
    else
      match lookupOp st.ops n with
      | none => st
      | some op =>
        let out := feedFrag applyMsgLine (op.buffer, (st, ⟨op.content, op.exprs⟩)) s
        { out.2.1 with
          ops := updateOp out.2.1.ops n ⟨out.1, out.2.2.content, out.2.2.exprs⟩ }
  | .topicFrag n s =>
    if st.aborted.contains n then st
    else
      match lookupOp st.ops n with
      | none => st
      | some op =>
        let out := feedFrag applyTopicLine (op.buffer, st) s
        { out.2 with ops := updateOp out.2.ops n ⟨out.1, op.content, op.exprs⟩ }
  | .streamEnd n =>
    let st1 :=
      if st.aborted.contains n then st
      else
        match lookupOp st.ops n with
        | none => st
        | some op =>
          if op.content ≠ [] then
            { st with messages :=
              st.messages ++ [⟨.assistant, op.content, some op.exprs⟩] }
          else st
    { st1 with isLoading := false, ctrl := none, ops := removeOp st1.ops n }
  | .topicEnd n =>
    { st with isLoading := false, ctrl := none, ops := removeOp st.ops n }
  | .reset =>
    { sessionId := none, variant := none, topic := none, topics := [],
      messages := [], events := [], isLoading := false, error := none,
      ctrl := st.ctrl,
      aborted := match st.ctrl with
        | some n => n :: st.aborted
        | none => st.aborted,
      ops := st.ops }

/-- Run a sequence of session actions. -/
def runActs (st : ChatState) (acts : List Act) : ChatState :=
  acts.foldl step st

/-!
## Statement-level definitions
-/

/-- Structural invariant of a segment list: every text segment is
non-empty, and a text segment is followed by an expression segment or
is the last segment (no two consecutive text segments). -/
def segsOk : List Seg → Bool
  | [] => true
  | .expr _ :: rest => segsOk rest
  | [.text t] => decide (t ≠ [])
  | .text t :: .expr e :: rest => decide (t ≠ []) && segsOk (.expr e :: rest)
  | .text _ :: .text _ :: _ => false

/-- Modelled from the spec: the identity key of a Topic, "url if
non-empty else headline" (spec section 3).  Stated only to compare the
claimed dedup key with the source's `setTopics` updater. -/
def specIdentityKey (t : Topic) : Str :=
  if t.url ≠ [] then t.url else t.headline

/-- The decoded payload of a `chunk` frame carrying content `c`. -/
def chunkJson (c : Str) : Json :=
  .obj [(str "type", .str (str "chunk")), (str "content", .str c)]

/-- The decoded payload of a `done` frame. -/
def doneJson : Json := .obj [(str "type", .str (str "done"))]

/-- Concatenation of a delivered fragment sequence. -/
def concatStr : List Str → Str
  | [] => []
  | s :: rest => s ++ concatStr rest

/-- Interleave lines with newline separators in front of a residual:
the inverse of the line decomposition `splitNlP`. -/
def joinNl (ls : List Str) (r : Str) : Str :=
  ls.foldr (fun l acc => l ++ '\n' :: acc) r
/-!
## Matching-loop progress (claim C9)
-/

/-- C9: the Markup Parser terminates on every input: each accepted match
of the bracket pattern — in both the lazy segment parser and the greedy
expression extractor — strictly advances the scan position (the input
remaining after a match is strictly shorter than the input scanned), so
the left-to-right scanning loops of `parseText` and
`extractExpressions` make strict progress and are total, with no
catastrophic backtracking: the matcher examines each candidate start
position once. -/
theorem c9_match_progress : ∀ (useLast : Bool) (s p m r : Str),
    tryMatchAt useLast s = some (p, m, r) → r.length < s.length := by
  intro useLast s p m r h
  rcases s with _ | ⟨c1, _ | ⟨c2, t⟩⟩
  · simp [tryMatchAt] at h
  · simp [tryMatchAt] at h
  · simp only [tryMatchAt] at h
    split at h
    · split at h
      next d1 d2 rest heq =>
        split at h
        · split at h
          next j hj =>
            have hrr : rest = r := by
              simp only [Option.some.injEq, Prod.mk.injEq] at h
              exact h.2.2
            have hlen : (List.drop (List.takeWhile (fun c => decide (c ≠ ']')) t).length t).length
                = rest.length + 2 := by rw [heq]; simp
            have h2 : (List.drop (List.takeWhile (fun c => decide (c ≠ ']')) t).length t).length
                ≤ t.length := by simp [List.length_drop]
            subst hrr
            simp only [List.length_cons]
            omega
          next => simp at h
        · simp at h
      next hne => simp at h
    · simp at h

/-- Witness for C9: the match consuming the whole of `[[a::b]]` leaves a
strictly shorter remainder. -/
theorem c9_match_progress_witness : ([] : Str).length < (str "[[a::b]]").length :=
  c9_match_progress true (str "[[a::b]]") (str "a") (str "b") [] (by decide)

/-!
## Segment-list invariant (claim C10)
-/

/-- Helper for C10: the invariant holds for every call of the scanner
loop, whatever text is pending. -/
theorem segsOk_parseAux : ∀ (fuel : Nat) (pending s : Str),
    segsOk (parseAux fuel pending s) = true := by
  intro fuel
  induction fuel with
  | zero =>
    intro pending s
    simp only [parseAux]
    split
    · simp [segsOk]
    · next hne => simp [segsOk, hne]
  | succ fuel ih =>
    intro pending s
    rcases s with _ | ⟨c, rest⟩
    · simp only [parseAux]
      split
      · simp [segsOk]
      · next hne => simp [segsOk, hne]
    · simp only [parseAux]
      rcases htm : tryMatchAt false (c :: rest) with _ | ⟨p, m, r⟩
      · simp only [htm]
        exact ih (pending ++ [c]) rest
      · simp only [htm]
        split
        · simpa [segsOk] using ih [] r
        · next hne =>
          simp [segsOk, hne]
          exact ih [] r

/-- C10: for every input, the segment list produced by `parseText`
satisfies the structural invariant: every text segment has non-empty
content, and no two consecutive segments are both text segments — a
text segment appears only immediately before an expression segment or
as the final segment. -/
theorem c10_segments_invariant (s : Str) : segsOk (parseText s) = true :=
  segsOk_parseAux s.length [] s

/-!
## Round trip on marker-free text (claim C5)
-/

/-- Helper for C5: when no position of the input admits a lazy-pattern
match, the scanner returns the pending text joined with the whole
input, as a single text segment when non-empty and as no segment at
all when empty. -/
theorem parseAux_noMarker : ∀ (s pending : Str) (fuel : Nat),
    (∀ i, i ≤ s.length → tryMatchAt false (s.drop i) = none) →
    parseAux fuel pending s =
      if pending ++ s = [] then [] else [Seg.text (pending ++ s)] := by
  intro s
  induction s with
  | nil =>
    intro pending fuel h
    cases fuel with
    | zero => simp [parseAux]
    | succ fuel => simp [parseAux]
  | cons c rest ih =>
    intro pending fuel h
    cases fuel with
    | zero => simp [parseAux]
    | succ fuel =>
      have h0 : tryMatchAt false (c :: rest) = none := by
        have := h 0 (by omega)
        simpa using this
      simp only [parseAux, h0]
      have h' : ∀ i, i ≤ rest.length → tryMatchAt false (rest.drop i) = none := by
        intro i hi
        have := h (i + 1) (by simp; omega)
        simpa using this
      rw [ih (pending ++ [c]) fuel h']
      simp

/-- Counterexample to C5: on the empty input `parseText` returns the
empty segment list — zero segments, not one empty text segment as the
claim states. -/
theorem c5_empty_input_zero_segments : parseText (str "") = [] := rfl

/-- C5 as amended: for every NON-empty input in which no position
admits a well-formed marker match, `parseText` returns exactly one
text segment whose content equals the input; the empty input instead
yields zero segments. -/
theorem c5_no_marker_single_segment (s : Str) (hne : s ≠ [])
    (h : ∀ i, i ≤ s.length → tryMatchAt false (s.drop i) = none) :
    parseText s = [Seg.text s] := by
  unfold parseText
  rw [parseAux_noMarker s [] s.length h]
  simp [hne]

/-- Witness for C5: the marker-free input `hello` parses to one text
segment equal to itself. -/
theorem c5_no_marker_single_segment_witness :
    parseText (str "hello") = [Seg.text (str "hello")] :=
  c5_no_marker_single_segment (str "hello") (by decide) (by decide)

/-!
## Delimiter split points (claim C6)
-/

/-- Helper for C6: the body run of a marker stops exactly at the first
closing bracket. -/
theorem takeWhile_noBracket (R l : Str) (hR : ']' ∉ R) :
    ((R ++ ']' :: l).takeWhile (fun c => decide (c ≠ ']'))) = R := by
  induction R with
  | nil => simp [List.takeWhile]
  | cons c cs ih =>
    have hc : c ≠ ']' := fun e => hR (by simp [e])
    have hcs : ']' ∉ cs := fun m => hR (by simp [m])
    have hstep : (c :: cs ++ ']' :: l) = c :: (cs ++ ']' :: l) := rfl
    rw [hstep, List.takeWhile_cons, if_pos (decide_eq_true hc), ih hcs]

/-- Helper for C6: matching a whole bracketed body against either
pattern reduces to the chosen delimiter position inside the body. -/
theorem tryMatchAt_wrap (useLast : Bool) (R : Str) (hR : ']' ∉ R) :
    tryMatchAt useLast ('[' :: '[' :: (R ++ ']' :: ']' :: [])) =
      match (if useLast then lastDelim R else firstDelim R) with
      | some j => some (R.take j, R.drop (j + 2), ([] : Str))
      | none => none := by
  simp only [tryMatchAt]
  rw [takeWhile_noBracket R (']' :: []) hR]
  rw [show (R ++ ']' :: ']' :: []).drop R.length = ']' :: ']' :: [] from
    List.drop_left R (']' :: ']' :: [])]
  simp

/-- Helper: the extractor loop returns nothing on exhausted input. -/
theorem extractAux_nil (fuel : Nat) : extractAux fuel [] = [] := by
  cases fuel <;> simp [extractAux]

/-- Helper: one successful match step of the extractor loop. -/
theorem extractAux_matchStep (fuel : Nat) (c : Char) (rest p m r : Str)
    (h : tryMatchAt true (c :: rest) = some (p, m, r)) :
    extractAux (fuel + 1) (c :: rest) =
      ⟨trimStr p, trimStr m⟩ :: extractAux fuel r := by
  simp only [extractAux, h]

/-- Helper: the segment scanner returns nothing on exhausted input with
no pending text. -/
theorem parseAux_nilnil (fuel : Nat) : parseAux fuel [] [] = [] := by
  cases fuel <;> simp [parseAux]

/-- Helper: one successful match step of the segment scanner. -/
theorem parseAux_matchStep (fuel : Nat) (c : Char) (rest p m r : Str)
    (h : tryMatchAt false (c :: rest) = some (p, m, r)) :
    parseAux (fuel + 1) [] (c :: rest) =
      Seg.expr ⟨trimStr p, trimStr m⟩ :: parseAux fuel [] r := by
  simp only [parseAux, h]
  simp

/-- Counterexample to C6: on `[[a::b::c]]`, whose body contains the
double-colon delimiter twice, the expression extractor (greedy pattern)
splits at the LAST occurrence, yielding phrase `a::b` and meaning `c`
— not the first-occurrence split `a` / `b::c` the claim states for
both parsers. -/
theorem c6_extractor_splits_at_last_delim :
    extractExpressions (str "[[a::b::c]]") = [⟨str "a::b", str "c"⟩] ∧
    (⟨str "a::b", str "c"⟩ : Expression) ≠ ⟨str "a", str "b::c"⟩ := by
  constructor
  · decide
  · decide

/-- C6 as amended: for a marker body `R` free of closing brackets, the
expression extractor splits the body at the LAST delimiter position
while the segment parser splits at the FIRST; each yields exactly one
expression with phrase and meaning trimmed of surrounding whitespace.
The two parsers agree, with phrase left of the split and the rest of
the body as meaning, whenever the body admits a single delimiter
position (as in `[[x::y:z]]`, which both parse to phrase `x`, meaning
`y:z`). -/
theorem c6_split_points (R : Str) (hR : ']' ∉ R) :
    (∀ j, lastDelim R = some j →
      extractExpressions ('[' :: '[' :: (R ++ ']' :: ']' :: [])) =
        [⟨trimStr (R.take j), trimStr (R.drop (j + 2))⟩]) ∧
    (∀ j, firstDelim R = some j →
      parseText ('[' :: '[' :: (R ++ ']' :: ']' :: [])) =
        [Seg.expr ⟨trimStr (R.take j), trimStr (R.drop (j + 2))⟩]) := by
  have hlen : ('[' :: '[' :: (R ++ ']' :: ']' :: [])).length = R.length + 3 + 1 := by
    simp
  constructor
  · intro j hj
    have hm := tryMatchAt_wrap true R hR
    rw [if_pos rfl, hj] at hm
    show extractAux ('[' :: '[' :: (R ++ ']' :: ']' :: [])).length _ = _
    rw [hlen, extractAux_matchStep _ _ _ _ _ _ hm, extractAux_nil]
  · intro j hj
    have hm := tryMatchAt_wrap false R hR
    rw [if_neg (by simp), hj] at hm
    show parseAux ('[' :: '[' :: (R ++ ']' :: ']' :: [])).length [] _ = _
    rw [hlen, parseAux_matchStep _ _ _ _ _ _ hm, parseAux_nilnil]

/-- Witness for C6: instantiating the split-point theorem on the body
`a::b::c` (last delimiter at 4, first at 1) and on `x::y:z` (single
delimiter at 1, shared by both parsers). -/
theorem c6_split_points_witness :
    extractExpressions (str "[[a::b::c]]") = [⟨str "a::b", str "c"⟩] ∧
    parseText (str "[[a::b::c]]") = [Seg.expr ⟨str "a", str "b::c"⟩] ∧
    extractExpressions (str "[[x::y:z]]") = [⟨str "x", str "y:z"⟩] ∧
    parseText (str "[[x::y:z]]") = [Seg.expr ⟨str "x", str "y:z"⟩] :=
  ⟨(c6_split_points (str "a::b::c") (by decide)).1 4 rfl,
   (c6_split_points (str "a::b::c") (by decide)).2 1 rfl,
   (c6_split_points (str "x::y:z") (by decide)).1 1 rfl,
   (c6_split_points (str "x::y:z") (by decide)).2 1 rfl⟩

/-!
## Topic registry (claim C4)
-/

/-- Counterexample to C4: a candidate whose identity key (url if
non-empty else headline) differs from every registered topic is NOT
appended when it shares a headline with a registered topic: the
source's updater also deduplicates on bare headline equality. -/
theorem c4_distinct_key_not_appended :
    specIdentityKey ⟨str "A", str "s1", str "u1"⟩ ≠
      specIdentityKey ⟨str "A", str "", str "u2"⟩ ∧
    insertTopic [⟨str "A", str "s1", str "u1"⟩] ⟨str "A", str "", str "u2"⟩ =
      [⟨str "A", str "s1", str "u1"⟩] := by
  constructor
  · decide
  · decide

/-- C4 as amended: topic insertion is idempotent — re-inserting a topic
equal to a registered one (same headline and url) is a no-op — and the
registry is append-only in first-seen order: every insertion either
leaves the list unchanged or appends the candidate at the end.  The
dedup test, however, is not the claimed identity key: a candidate is
dropped when any registered topic shares its non-empty url OR shares
its headline. -/
theorem c4_insert_idempotent_append_only (prev : List Topic) (t : Topic) :
    insertTopic (insertTopic prev t) t = insertTopic prev t ∧
    (insertTopic prev t = prev ∨ insertTopic prev t = prev ++ [t]) := by
  by_cases hA :
      (prev.any fun item => decide (item.url ≠ []) && decide (item.url = t.url)) = true
  · have h : insertTopic prev t = prev := by unfold insertTopic; rw [if_pos hA]
    exact ⟨by rw [h]; exact h, Or.inl h⟩
  · by_cases hB : (prev.any fun item => decide (item.headline = t.headline)) = true
    · have h : insertTopic prev t = prev := by
        unfold insertTopic; rw [if_neg hA, if_pos hB]
      exact ⟨by rw [h]; exact h, Or.inl h⟩
    · have h : insertTopic prev t = prev ++ [t] := by
        unfold insertTopic; rw [if_neg hA, if_neg hB]
      refine ⟨?_, Or.inr h⟩
      rw [h]
      have hA' :
          (prev.any fun item => decide (item.url ≠ []) && decide (item.url = t.url))
            = false := by
        exact Bool.not_eq_true _ |>.mp hA
      unfold insertTopic
      by_cases hu : t.url = []
      · rw [if_neg ?_, if_pos ?_]
        · rw [List.any_append]
          simp
        · rw [List.any_append]
          simp [hu, hA']
      · rw [if_pos ?_]
        rw [List.any_append]
        simp [hu, hA']

/-!
## Frame decoder (claims C3, C7, C8)

The lemmas characterize the buffer-carrying read loop: splitting the
concatenated input at newlines is invariant under how the input was
chunked into fragments, the handler is applied exactly to the complete
lines in order, and the final residual (an unterminated line) is never
handed to the handler.
-/

/-- Helper: the two line decompositions agree. -/
theorem splitNl_eq_P (s : Str) :
    splitNl s = (splitNlP s).1 ++ [(splitNlP s).2] := by
  induction s with
  | nil => rfl
  | cons c rest ih =>
    by_cases hc : c = '\n'
    · simp [splitNl, splitNlP, hc, ih]
    · simp only [splitNl, splitNlP, hc, if_neg, ite_false]
      rcases hp : (splitNlP rest).1 with _ | ⟨l, ls⟩
      · rw [hp] at ih
        simp only [List.nil_append] at ih
        rw [ih]
        simp
      · rw [hp] at ih
        rw [ih]
        simp

/-- Helper: a newline-free text is all residual. -/
theorem splitNlP_noNl (r : Str) (h : '\n' ∉ r) : splitNlP r = ([], r) := by
  induction r with
  | nil => rfl
  | cons c rest ih =>
    have hc : ¬ c = '\n' := fun e => h (by simp [e])
    have hrest : '\n' ∉ rest := fun m => h (by simp [m])
    simp [splitNlP, hc, ih hrest]

/-- Helper: a leading complete line splits off. -/
theorem splitNlP_line (l x : Str) (h : '\n' ∉ l) :
    splitNlP (l ++ '\n' :: x) = (l :: (splitNlP x).1, (splitNlP x).2) := by
  induction l with
  | nil => simp [splitNlP]
  | cons c cs ih =>
    have hc : ¬ c = '\n' := fun e => h (by simp [e])
    have hcs : '\n' ∉ cs := fun m => h (by simp [m])
    simp [splitNlP, hc, ih hcs]

/-- Helper: every piece of the decomposition is newline-free. -/
theorem splitNlP_pieces (s : Str) :
    (∀ l ∈ (splitNlP s).1, '\n' ∉ l) ∧ '\n' ∉ (splitNlP s).2 := by
  induction s with
  | nil => simp [splitNlP]
  | cons c rest ih =>
    by_cases hc : c = '\n'
    · simp only [splitNlP, hc, ite_true]
      refine ⟨?_, ih.2⟩
      intro l hl
      rcases List.mem_cons.mp hl with h1 | h1
      · simp [h1]
      · exact ih.1 l h1
    · rcases hp : (splitNlP rest).1 with _ | ⟨l, ls⟩
      · simp only [splitNlP, hc, ite_false, hp]
        refine ⟨by simp, ?_⟩
        intro hmem
        rcases List.mem_cons.mp hmem with h1 | h1
        · exact hc h1.symm
        · exact ih.2 h1
      · simp only [splitNlP, hc, ite_false, hp]
        refine ⟨?_, ih.2⟩
        intro m hm
        rcases List.mem_cons.mp hm with h1 | h1
        · subst h1
          intro hmem
          rcases List.mem_cons.mp hmem with h2 | h2
          · exact hc h2.symm
          · have := ih.1 l (by rw [hp]; exact List.mem_cons_self _ _)
            exact this h2
        · exact ih.1 m (by rw [hp]; exact List.mem_cons_of_mem _ h1)

/-- Helper: rejoining the decomposition restores the text. -/
theorem joinNl_splitNlP (s : Str) :
    joinNl (splitNlP s).1 (splitNlP s).2 = s := by
  induction s with
  | nil => rfl
  | cons c rest ih =>
    by_cases hc : c = '\n'
    · simp only [splitNlP, hc, ite_true]
      simpa [joinNl] using congrArg (fun x => '\n' :: x) ih
    · rcases hp : (splitNlP rest).1 with _ | ⟨l, ls⟩
      · simp only [splitNlP, hc, ite_false, hp]
        rw [hp] at ih
        simp only [joinNl, List.foldr_nil] at ih ⊢
        rw [ih]
      · simp only [splitNlP, hc, ite_false, hp]
        rw [hp] at ih
        simp only [joinNl, List.foldr_cons] at ih ⊢
        rw [List.cons_append, ih]

/-- Helper: decomposing a join of newline-free pieces recovers them. -/
theorem splitNlP_join (ls : List Str) (r : Str)
    (hls : ∀ l ∈ ls, '\n' ∉ l) (hr : '\n' ∉ r) :
    splitNlP (joinNl ls r) = (ls, r) := by
  induction ls with
  | nil => exact splitNlP_noNl r hr
  | cons l ls ih =>
    have h1 : '\n' ∉ l := hls l (List.mem_cons_self _ _)
    have h2 : ∀ m ∈ ls, '\n' ∉ m := fun m hm => hls m (List.mem_cons_of_mem _ hm)
    show splitNlP (l ++ '\n' :: joinNl ls r) = _
    rw [splitNlP_line l _ h1, ih h2]

/-- Helper: appending to the residual commutes with joining. -/
theorem joinNl_append (ls : List Str) (r b : Str) :
    joinNl ls r ++ b = joinNl ls (r ++ b) := by
  induction ls with
  | nil => rfl
  | cons l ls ih =>
    simp only [joinNl, List.foldr_cons] at ih ⊢
    rw [List.append_assoc]
    rw [show ('\n' :: List.foldr (fun l acc => l ++ '\n' :: acc) r ls) ++ b
        = '\n' :: (List.foldr (fun l acc => l ++ '\n' :: acc) r ls ++ b) from rfl]
    rw [ih]

/-- Helper: joining is associative over line lists. -/
theorem joinNl_joinNl (as bs : List Str) (rb : Str) :
    joinNl as (joinNl bs rb) = joinNl (as ++ bs) rb := by
  simp [joinNl, List.foldr_append]

/-- Helper: line decomposition of an appended text. -/
theorem splitNlP_append (a b : Str) :
    splitNlP (a ++ b) =
      ((splitNlP a).1 ++ (splitNlP ((splitNlP a).2 ++ b)).1,
       (splitNlP ((splitNlP a).2 ++ b)).2) := by
  have pa := splitNlP_pieces a
  have pb := splitNlP_pieces ((splitNlP a).2 ++ b)
  have step1 : a ++ b = joinNl (splitNlP a).1 ((splitNlP a).2 ++ b) := by
    rw [← joinNl_append, joinNl_splitNlP]
  rw [step1, ← joinNl_splitNlP ((splitNlP a).2 ++ b), joinNl_joinNl]
  rw [joinNl_splitNlP ((splitNlP a).2 ++ b)]
  exact splitNlP_join _ _
    (by
      intro l hl
      rcases List.mem_append.mp hl with h1 | h1
      · exact pa.1 l h1
      · exact pb.1 l h1)
    pb.2

/-- Helper: the residual line never contains a newline, so splitting it
again yields no complete line. -/
theorem splitNlP_residual_nil (s : Str) :
    (splitNlP ((splitNlP s).2)).1 = [] := by
  have p := splitNlP_pieces s
  have := splitNlP_noNl ((splitNlP s).2) p.2
  rw [this]

/-- Helper: a text with no complete line is all residual. -/
theorem splitNlP_of_fst_nil (s : Str) (h : (splitNlP s).1 = []) :
    splitNlP s = ([], s) := by
  have hj := joinNl_splitNlP s
  rw [h] at hj
  simp only [joinNl, List.foldr_nil] at hj
  rw [Prod.ext_iff]
  exact ⟨h, hj⟩

/-- Helper: one read-loop iteration in terms of the decomposition. -/
theorem feedFrag_eq {σ : Type} (handle : σ → Str → σ) (buf : Str) (st : σ) (frag : Str) :
    feedFrag handle (buf, st) frag =
      ((splitNlP (buf ++ frag)).2, (splitNlP (buf ++ frag)).1.foldl handle st) := by
  show ((splitNl (buf ++ frag)).getLastD [],
      (splitNl (buf ++ frag)).dropLast.foldl handle st) = _
  rw [splitNl_eq_P (buf ++ frag)]
  simp

/-- Helper: the whole read loop applies the handler to exactly the
complete lines of the concatenated delivery, in order, and carries the
unterminated remainder in the buffer. -/
theorem runStream_eq {σ : Type} (handle : σ → Str → σ) (frags : List Str) :
    ∀ (buf : Str) (st : σ), (splitNlP buf).1 = [] →
      frags.foldl (feedFrag handle) (buf, st) =
        ((splitNlP (buf ++ concatStr frags)).2,
         (splitNlP (buf ++ concatStr frags)).1.foldl handle st) := by
  induction frags with
  | nil =>
    intro buf st hbuf
    have h0 : splitNlP buf = ([], buf) := splitNlP_of_fst_nil buf hbuf
    simp [concatStr, h0]
  | cons f fs ih =>
    intro buf st hbuf
    show fs.foldl (feedFrag handle) (feedFrag handle (buf, st) f) = _
    rw [feedFrag_eq]
    rw [ih _ _ (splitNlP_residual_nil (buf ++ f))]
    have hassoc : buf ++ concatStr (f :: fs) = (buf ++ f) ++ concatStr fs := by
      simp [concatStr, List.append_assoc]
    rw [hassoc, splitNlP_append (buf ++ f) (concatStr fs)]
    simp [List.foldl_append]

/-- Helper: folding list-push is appending. -/
theorem foldl_push (L : List Str) : ∀ acc : List Str,
    L.foldl (fun a l => a ++ [l]) acc = acc ++ L := by
  induction L with
  | nil => intro acc; simp
  | cons x xs ih =>
    intro acc
    simp only [List.foldl_cons, ih]
    simp

/-- Helper: the lines a delivered fragment sequence hands to the
per-line handler are exactly the complete lines of its concatenation. -/
theorem streamLines_eq (frags : List Str) :
    streamLines frags = (splitNlP (concatStr frags)).1 := by
  unfold streamLines runStream
  rw [runStream_eq _ frags [] [] rfl]
  simp [foldl_push]

/-- Counterexample to C3: a final chunk frame whose line lacks the
terminating newline is dropped when the transport ends — no message
results — whereas the same delivery with the newline produces the
flushed assistant message.  The claim states the carried-over line is
flushed and applied in both cases. -/
theorem c3_unterminated_line_dropped :
    (processStreamResponse initialState
        [str "data: \x7b\"type\":\"chunk\",\"content\":\"hi\"\x7d"]).messages = [] ∧
    (processStreamResponse initialState
        [str "data: \x7b\"type\":\"chunk\",\"content\":\"hi\"\x7d\n"]).messages =
      [⟨.assistant, str "hi", some []⟩] := by
  constructor
  · rfl
  · rfl

/-- C3 as amended: the decoder never emits a partial line as a frame —
the whole stream processing is determined by the complete
newline-terminated lines of the concatenated delivery (in order),
followed by the end-of-stream flush of the accumulated assistant text;
the final carried-over line lacking a newline is never decoded or
applied. -/
theorem c3_only_complete_lines_processed (st : ChatState) (frags : List Str) :
    processStreamResponse st frags =
      finalFlush ((splitNlP (concatStr frags)).1.foldl applyMsgLine (st, emptyAcc)) := by
  unfold processStreamResponse runStream
  rw [runStream_eq applyMsgLine frags [] (st, emptyAcc) rfl]
  simp

/-- C7: frame decoding is invariant under chunking — for every
newline-free line and every way of splitting the newline-terminated
frame into delivered fragments, the decoded payload sequence is the
same: exactly the one decode of that line. -/
theorem c7_frame_decode_split_invariant (L : Str) (j : Json) (hL : '\n' ∉ L)
    (hdec : decodeLine L = some j) (frags : List Str)
    (h : concatStr frags = L ++ ['\n']) :
    decodedPayloads frags = [j] := by
  unfold decodedPayloads
  rw [streamLines_eq, h]
  rw [show L ++ ['\n'] = L ++ '\n' :: ([] : Str) from rfl]
  rw [splitNlP_line L [] hL]
  show List.filterMap decodeLine (L :: (splitNlP []).1) = [j]
  simp [splitNlP, hdec]

/-- Witness for C7: the frame of the spec's example, split in the
middle of the prefix, of a key, and of the payload, still decodes to
exactly its one chunk event. -/
theorem c7_frame_decode_split_invariant_witness :
    decodedPayloads
        [str "data: \x7b\"ty", str "pe\":\"chunk\",\"con", str "tent\":\"hi\"\x7d\n"] =
      [Json.obj [(str "type", Json.str (str "chunk")),
                 (str "content", Json.str (str "hi"))]] :=
  c7_frame_decode_split_invariant
    (str "data: \x7b\"type\":\"chunk\",\"content\":\"hi\"\x7d")
    (Json.obj [(str "type", Json.str (str "chunk")),
               (str "content", Json.str (str "hi"))])
    (by decide) (by rfl) _ (by rfl)

/-- C8: a prefixed line whose payload is not valid JSON is a non-fatal
decode error — handling it changes nothing, in the message stream and
in the topic stream alike, and the remaining lines of the stream are
handled exactly as if the malformed line were absent (the stream is
never aborted). -/
theorem c8_malformed_line_nonfatal (bad : Str)
    (hpre : dataTag.isPrefixOf bad = true)
    (hbad : jsonParse (bad.drop 6) = none) :
    (∀ (p : ChatState × TurnAcc) (pre post : List Str),
        (pre ++ bad :: post).foldl applyMsgLine p =
          (pre ++ post).foldl applyMsgLine p) ∧
    (∀ (st : ChatState) (pre post : List Str),
        (pre ++ bad :: post).foldl applyTopicLine st =
          (pre ++ post).foldl applyTopicLine st) := by
  have hmsg : ∀ p, applyMsgLine p bad = p := by
    intro p
    unfold applyMsgLine
    rw [if_pos hpre, hbad]
  have htop : ∀ st, applyTopicLine st bad = st := by
    intro st
    unfold applyTopicLine
    rw [if_pos hpre, hbad]
  constructor
  · intro p pre post
    simp [List.foldl_append, hmsg]
  · intro st pre post
    simp [List.foldl_append, htop]

/-- Witness for C8: dropping the malformed line `data: \x7boops` leaves
the handling of a following valid `done` line unchanged. -/
theorem c8_malformed_line_nonfatal_witness :
    ([str "data: \x7boops",
      str "data: \x7b\"type\":\"done\"\x7d"].foldl applyMsgLine
        (initialState, emptyAcc)) =
      ([str "data: \x7b\"type\":\"done\"\x7d"].foldl applyMsgLine
        (initialState, emptyAcc)) :=
  (c8_malformed_line_nonfatal (str "data: \x7boops") (by decide) (by rfl)).1
    (initialState, emptyAcc) [] [str "data: \x7b\"type\":\"done\"\x7d"]

/-!
## Message assembler finalization (claim C1)
-/

/-- Helper: dispatching a chunk payload appends its content to the
accumulator and extends the expression list with the extractions from
just that increment. -/
theorem applyEvent_chunk (st : ChatState) (acc : TurnAcc) (c : Str) :
    applyEvent st acc (chunkJson c) =
      (st, ⟨acc.content ++ c, acc.exprs ++ extractExpressions c⟩) := rfl

/-- Helper: dispatching the done payload finalizes the accumulated
message with the accumulated expression list as is (no re-parse). -/
theorem applyEvent_done (st : ChatState) (acc : TurnAcc) :
    applyEvent st acc doneJson =
      (if acc.content ≠ [] then
        addEvent
          { st with messages :=
              st.messages ++ [⟨.assistant, acc.content, some acc.exprs⟩] }
          .response (some (.str acc.content))
      else
        { st with messages :=
            st.messages ++ [⟨.assistant, acc.content, some acc.exprs⟩] },
      emptyAcc) := rfl

/-- Helper: folding a run of chunk payloads concatenates contents and
concatenates per-chunk extractions. -/
theorem foldChunks (cs : List Str) : ∀ (st : ChatState) (acc : TurnAcc),
    (cs.map chunkJson).foldl (fun p j => applyEvent p.1 p.2 j) (st, acc) =
      (st, ⟨acc.content ++ concatStr cs,
            acc.exprs ++ cs.flatMap extractExpressions⟩) := by
  induction cs with
  | nil =>
    intro st acc
    simp [concatStr]
  | cons c cs ih =>
    intro st acc
    simp only [List.map_cons, List.foldl_cons]
    rw [show applyEvent (st, acc).1 (st, acc).2 (chunkJson c) =
        (st, ⟨acc.content ++ c, acc.exprs ++ extractExpressions c⟩) from rfl]
    rw [ih]
    simp [concatStr, List.append_assoc, List.flatMap_cons]

/-- Counterexample to C1: a marker split across two chunk increments
(`[[a:` then `:b]]`) is absent from the finalized assistant Message's
expression list, although running the extractor over the complete
finalized content `[[a::b]]` yields it — the finalized list does not
equal the parse of the complete content. -/
theorem c1_split_marker_lost :
    (processStreamResponse initialState
        [str "data: \x7b\"type\":\"chunk\",\"content\":\"[[a:\"\x7d\n",
         str "data: \x7b\"type\":\"chunk\",\"content\":\":b]]\"\x7d\n",
         str "data: \x7b\"type\":\"done\"\x7d\n"]).messages =
      [⟨.assistant, str "[[a::b]]", some []⟩] ∧
    extractExpressions (str "[[a::b]]") = [⟨str "a", str "b"⟩] ∧
    ([] : List Expression) ≠ [⟨str "a", str "b"⟩] := by
  refine ⟨rfl, rfl, by decide⟩

/-- C1 as amended: when the done event is dispatched after any sequence
of chunk increments, the finalized assistant Message carries the
concatenated content and the CONCATENATION of the per-increment
extractor runs — not a re-parse of the complete content — so an
expression split across two increments does not appear. -/
theorem c1_finalized_expressions_per_chunk (cs : List Str) (st : ChatState) :
    (((cs.map chunkJson ++ [doneJson]).foldl
        (fun p j => applyEvent p.1 p.2 j) (st, emptyAcc)).1).messages =
      st.messages ++
        [⟨.assistant, concatStr cs, some (cs.flatMap extractExpressions)⟩] := by
  rw [List.foldl_append, foldChunks]
  simp only [List.foldl_cons, List.foldl_nil]
  rw [show (applyEvent st ⟨emptyAcc.content ++ concatStr cs,
      emptyAcc.exprs ++ cs.flatMap extractExpressions⟩ doneJson) =
      applyEvent st ⟨concatStr cs, cs.flatMap extractExpressions⟩ doneJson from rfl]
  rw [applyEvent_done]
  split
  · rfl
  · rfl

/-!
## Cancellation across streaming operations (claim C2)
-/

/-- Counterexample to C2: two sendMessage calls in rapid succession
(the second issued before the first completes) produce TWO finalized
assistant messages, and the first call's buffer (`A`) appears in the
message list: overwriting the controller reference does not abort the
prior stream. -/
theorem c2_two_sends_two_messages :
    (runActs { initialState with sessionId := some (str "s") }
        [Act.sendStart 1 (str "q1"), Act.sendStart 2 (str "q2"),
         Act.frag 1 (str "data: \x7b\"type\":\"chunk\",\"content\":\"A\"\x7d\ndata: \x7b\"type\":\"done\"\x7d\n"),
         Act.streamEnd 1,
         Act.frag 2 (str "data: \x7b\"type\":\"chunk\",\"content\":\"B\"\x7d\ndata: \x7b\"type\":\"done\"\x7d\n"),
         Act.streamEnd 2]).messages =
      [⟨.user, str "q1", none⟩, ⟨.user, str "q2", none⟩,
       ⟨.assistant, str "A", some []⟩, ⟨.assistant, str "B", some []⟩] := by
  rfl

/-- C2 as amended: starting a new streaming operation does NOT cancel a
prior in-flight one — the abort handle is overwritten without being
aborted, both streams keep applying their decoded events, and two rapid
sendMessage calls finalize two assistant Messages including the first
call's buffer.  Only reset (and unmount) aborts the current handle: a
stream whose controller was aborted by reset applies nothing further
and finalizes no message. -/
theorem c2_no_implicit_cancel (m1 m2 : Str) :
    (runActs { initialState with sessionId := some (str "s") }
        [Act.sendStart 1 m1, Act.sendStart 2 m2,
         Act.frag 1 (str "data: \x7b\"type\":\"chunk\",\"content\":\"A\"\x7d\ndata: \x7b\"type\":\"done\"\x7d\n"),
         Act.streamEnd 1,
         Act.frag 2 (str "data: \x7b\"type\":\"chunk\",\"content\":\"B\"\x7d\ndata: \x7b\"type\":\"done\"\x7d\n"),
         Act.streamEnd 2]).messages =
      [⟨.user, m1, none⟩, ⟨.user, m2, none⟩,
       ⟨.assistant, str "A", some []⟩, ⟨.assistant, str "B", some []⟩] ∧
    (runActs { initialState with sessionId := some (str "s") }
        [Act.sendStart 1 m1, Act.reset,
         Act.frag 1 (str "data: \x7b\"type\":\"chunk\",\"content\":\"A\"\x7d\ndata: \x7b\"type\":\"done\"\x7d\n"),
         Act.streamEnd 1]).messages = [] := by
  exact ⟨rfl, rfl⟩
